import Mathlib

/-!
Shallow embedding of the Rodeo dotfile manager (src/lib.rs, src/main.rs).

Strings are modelled as lists of characters.  The source uses Rust
String::replace, a single left-to-right pass substituting non-overlapping
occurrences of a fixed pattern; the three pattern instances appearing in
the source (tilde, double slash, tilde-slash) are embedded as the three
structural functions below.  Filesystem effects (directory creation, file
copies, shell commands, diagnostics) are modelled as an event trace, and
per-path reconciliation outcomes as an explicit decision type.
-/

abbrev Str := List Char

/-- Rust s.replace of the one-character pattern tilde by rep:
single left-to-right pass, non-overlapping, no rescan of rep. -/
def replaceTilde (rep : Str) : Str → Str
  | [] => []
  | c :: rest =>
    if c = '~' then rep ++ replaceTilde rep rest
    else c :: replaceTilde rep rest

/-- Rust s.replace of the two-character pattern double-slash by a single
slash: single left-to-right pass over non-overlapping occurrences, so a
run of three slashes leaves two. -/
def collapseSlashes : Str → Str
  | [] => []
  | [c] => [c]
  | c1 :: c2 :: rest =>
    if c1 = '/' ∧ c2 = '/' then '/' :: collapseSlashes rest
    else c1 :: collapseSlashes (c2 :: rest)

/-- Rust root.replace of the two-character pattern tilde-slash by the
empty string, as used to build the repository-side subdirectory. -/
def removeTildeSlash : Str → Str
  | [] => []
  | [c] => [c]
  | c1 :: c2 :: rest =>
    if c1 = '~' ∧ c2 = '/' then removeTildeSlash rest
    else c1 :: removeTildeSlash (c2 :: rest)

/-- Boolean test that pat occurs as a contiguous substring. -/
def hasSubstring (pat : Str) : Str → Bool
  | [] => pat.isEmpty
  | c :: rest => pat.isPrefixOf (c :: rest) || hasSubstring pat rest

/-- Embedding of Program::standardize_path (lib.rs lines 353 to 370):
replace every tilde by the home directory, drop one trailing slash if
present, then run one substitution pass turning double slashes into
single slashes. -/
def standardize_path (path home_dir : Str) : Str :=
  let p1 := replaceTilde home_dir path
  let p2 := if p1.getLast? = some '/' then p1.dropLast else p1
  collapseSlashes p2

/-- One tracked program record (lib.rs lines 24 to 31). -/
structure Program where
  name : Str
  root : Str
  paths : List Str
  post_deploy_cmd : Str
  deriving DecidableEq, Repr

/-- The loaded configuration (lib.rs lines 9 to 22). -/
structure Settings where
  home : Str
  config_path : Str
  dotfiles_directory : Str
  programs : List Program
  deriving DecidableEq, Repr

/-- Embedding of Settings::new_from_file (lib.rs lines 36 to 47): the
parsed configuration (dotfiles directory string and program list) is
stored with the home and config path, and the only transformation is the
tilde substitution on the dotfiles directory. -/
def Settings.new_from_file (configured_dotfiles : Str) (programs : List Program)
    (home config_path : Str) : Settings :=
  { home := home
    config_path := config_path
    dotfiles_directory := replaceTilde home configured_dotfiles
    programs := programs }

/-- Observable actions of a run, in order of emission: version-control
calls, directory creation, file copy attempts, shell commands, and the
diagnostics printed by sync_local. -/
inductive Event where
  | gitPull
  | gitPush
  | createDir (d : Str)
  | copy (src dst : Str)
  | runCmd (c : Str)
  | diagBothMissing (i : Str)
  | diagSameAge (i : Str)
  | diagErrMetadata (f : Str)
  | diagErrModified (i : Str)
  deriving DecidableEq, Repr

def Event.isCopy : Event → Bool
  | Event.copy _ _ => true
  | _ => false

def Event.isRunCmd : Event → Bool
  | Event.runCmd _ => true
  | _ => false

/-- Embedding of Program::copy_file (lib.rs lines 332 to 349): both
arguments get the double-slash pass, then one copy is attempted; success
and failure differ only in the line printed, never in control flow, so a
single event records the attempt. -/
def copy_file (f t : Str) : Event :=
  Event.copy (collapseSlashes f) (collapseSlashes t)

/-- Which of the two candidate files a diagnostic refers to. -/
inductive Side where
  | repo
  | working
  deriving DecidableEq, Repr

/-- Per-path outcome of one iteration of the sync_local loop
(lib.rs lines 242 to 324).  There is no both-missing decision: the
both-missing arm at lib.rs lines 255 to 257 prints its diagnostic but
has no continue statement, so that iteration falls through to the same
metadata matching as the both-exist case and ends in one of the
decisions below (on a race-free filesystem, the repo-side metadata
error). -/
inductive SyncDecision where
  | copyWorkingToRepo
  | copyRepoToWorking
  | errMetadata (s : Side)
  | errModified (s : Side)
  | noOpSameAge
  deriving DecidableEq, Repr

/-- Result of fs::metadata on one file: modified is the mtime in
abstract time units when metadata.modified() succeeds. -/
structure MetaInfo where
  modified : Option Nat
  deriving DecidableEq, Repr

/-- State of one path on disk: present mirrors Path::exists, metadata is
none when fs::metadata fails even though the probe succeeded. -/
structure FileInfo where
  present : Bool
  metadata : Option MetaInfo
  deriving DecidableEq, Repr

/-- SystemTime::elapsed at current time now for a modification time t:
errs exactly when t lies in the future. -/
def elapsedSince (now t : Nat) : Option Nat :=
  if t ≤ now then some (now - t) else none

/-- The metadata comparison phase of one sync_local iteration,
mirroring the two metadata matches and the two modified-elapsed matches
of lib.rs lines 270 to 323 in source order. -/
def metadataDecision (now : Nat) (repoI workingI : FileInfo) : SyncDecision :=
  match repoI.metadata with
  | none => SyncDecision.errMetadata Side.repo
  | some rm =>
    match workingI.metadata with
    | none => SyncDecision.errMetadata Side.working
    | some wm =>
      match rm.modified with
      | none => SyncDecision.errModified Side.repo
      | some rt =>
        match elapsedSince now rt with
        | none => SyncDecision.errModified Side.repo
        | some re =>
          match wm.modified with
          | none => SyncDecision.errModified Side.working
          | some wt =>
            match elapsedSince now wt with
            | none => SyncDecision.errModified Side.working
            | some we =>
              if re < we then SyncDecision.copyRepoToWorking
              else if we < re then SyncDecision.copyWorkingToRepo
              else SyncDecision.noOpSameAge

/-- Decision logic of one iteration of the sync_local loop, mirroring
the existence checks of lib.rs lines 250 to 267.  The one-sided
branches end in continue; the both-missing branch does not, so after
its diagnostic (emitted by the caller) control falls through to the
metadata phase at line 270 exactly as in the both-exist case. -/
def syncOne (now : Nat) (repoI workingI : FileInfo) : SyncDecision :=
  if !repoI.present && !workingI.present then
    metadataDecision now repoI workingI
  else if !repoI.present then
    SyncDecision.copyWorkingToRepo
  else if !workingI.present then
    SyncDecision.copyRepoToWorking
  else
    metadataDecision now repoI workingI

/-- Events emitted for one path once its decision is known: the copy
decisions invoke copy_file in the direction the source does, all other
decisions print exactly one diagnostic. -/
def pathEvents (i repo_file working_file : Str) : SyncDecision → List Event
  | SyncDecision.copyWorkingToRepo => [copy_file working_file repo_file]
  | SyncDecision.copyRepoToWorking => [copy_file repo_file working_file]
  | SyncDecision.errMetadata Side.repo => [Event.diagErrMetadata repo_file]
  | SyncDecision.errMetadata Side.working => [Event.diagErrMetadata working_file]
  | SyncDecision.errModified _ => [Event.diagErrModified i]
  | SyncDecision.noOpSameAge => [Event.diagSameAge i]

/-- All events of one iteration of the sync_local loop: when both files
are absent the both-missing diagnostic of lib.rs line 256 is printed
first, and then, because that branch lacks a continue, the decision
events follow; in every other case only the decision events are
emitted. -/
def iterationEvents (now : Nat) (i repo_file working_file : Str)
    (repoI workingI : FileInfo) : List Event :=
  (if !repoI.present && !workingI.present then [Event.diagBothMissing i] else [])
    ++ pathEvents i repo_file working_file (syncOne now repoI workingI)

/-- The per-path loop of Program::sync_local (lib.rs lines 242 to 324):
the repo file is dotfiles_dir/rootNoTilde/i and the working file is
program_files_root/i; fs gives the on-disk state of each full path. -/
def sync_local_loop (now : Nat) (fs : Str → FileInfo)
    (dotfiles_dir rootNoTilde program_files_root : Str) : List Str → List Event
  | [] => []
  | i :: rest =>
    let repo_file := dotfiles_dir ++ '/' :: rootNoTilde ++ '/' :: i
    let working_file := program_files_root ++ '/' :: i
    iterationEvents now i repo_file working_file (fs repo_file) (fs working_file)
      ++ sync_local_loop now fs dotfiles_dir rootNoTilde program_files_root rest

/-- Embedding of Program::sync_local (lib.rs lines 229 to 325):
standardize both roots, ensure both directories exist, then run the
per-path loop. -/
def Program.sync_local (p : Program) (home_dir dotfiles_dir : Str)
    (now : Nat) (fs : Str → FileInfo) : List Event :=
  let program_files_root := standardize_path p.root home_dir
  let dotfiles_dir2 := standardize_path dotfiles_dir home_dir
  let rootNoTilde := removeTildeSlash p.root
  Event.createDir program_files_root ::
  Event.createDir (dotfiles_dir2 ++ '/' :: rootNoTilde) ::
  sync_local_loop now fs dotfiles_dir2 rootNoTilde program_files_root p.paths

/-- The copy loop of Program::deploy (lib.rs lines 197 to 204). -/
def deployLoop (source_dir output_dir rootNoTilde : Str) : List Str → List Event
  | [] => []
  | i :: rest =>
    copy_file (source_dir ++ '/' :: rootNoTilde ++ '/' :: i)
        (output_dir ++ '/' :: i)
      :: deployLoop source_dir output_dir rootNoTilde rest

/-- Embedding of Program::deploy (lib.rs lines 188 to 205): standardize
both roots, create the output directory, then copy every tracked path
from the repository side to the system side.  The body neither calls
run_post_deploy_cmd nor emits any shell command. -/
def Program.deploy (p : Program) (home_dir dotfiles_dir : Str) : List Event :=
  let source_dir := standardize_path dotfiles_dir home_dir
  let output_dir := standardize_path p.root home_dir
  let rootNoTilde := removeTildeSlash p.root
  Event.createDir (output_dir ++ '/' :: rootNoTilde) ::
  deployLoop source_dir output_dir rootNoTilde p.paths

/-- Embedding of Program::run_post_deploy_cmd (lib.rs lines 161 to 184):
returns without doing anything when the command is empty, otherwise runs
the command once in a shell. -/
def Program.run_post_deploy_cmd (p : Program) : List Event :=
  if p.post_deploy_cmd.length < 1 then []
  else [Event.runCmd p.post_deploy_cmd]

/-- The loop of Settings::sync_local and of the middle phase of
Settings::sync_full (lib.rs lines 63 to 67 and 82 to 84). -/
def syncAllPrograms (home dotfiles : Str) (now : Nat) (fs : Str → FileInfo) :
    List Program → List Event
  | [] => []
  | p :: rest =>
    p.sync_local home dotfiles now fs
      ++ syncAllPrograms home dotfiles now fs rest

/-- Embedding of Settings::sync_full (lib.rs lines 78 to 87): git pull,
then sync_local over every program in order, then git push. -/
def Settings.sync_full (s : Settings) (now : Nat) (fs : Str → FileInfo) : List Event :=
  Event.gitPull ::
    syncAllPrograms s.home s.dotfiles_directory now fs s.programs
      ++ [Event.gitPush]

/-!
Helper lemmas about the string pass functions.
-/

theorem replaceTilde_self (rep : Str) : ∀ s : Str, '~' ∉ s → replaceTilde rep s = s
  | [], _ => rfl
  | c :: rest, h => by
    have hc : c ≠ '~' := fun hc => h (hc ▸ List.mem_cons_self c rest)
    have hr : '~' ∉ rest := fun hr => h (List.mem_cons_of_mem c hr)
    simp [replaceTilde, hc, replaceTilde_self rep rest hr]

theorem replaceTilde_not_mem (rep : Str) (hrep : '~' ∉ rep) :
    ∀ s : Str, '~' ∉ replaceTilde rep s
  | [] => by simp [replaceTilde]
  | c :: rest => by
    by_cases hc : c = '~'
    · simp only [replaceTilde, hc, if_true, List.mem_append]
      rintro (h | h)
      · exact hrep h
      · exact replaceTilde_not_mem rep hrep rest h
    · simp only [replaceTilde, if_neg hc, List.mem_cons]
      rintro (h | h)
      · exact hc h.symm
      · exact replaceTilde_not_mem rep hrep rest h

theorem collapseSlashes_cons (d : Char) (t : Str) (hd : d ≠ '/') :
    collapseSlashes (d :: t) = d :: collapseSlashes t := by
  cases t with
  | nil => simp [collapseSlashes]
  | cons e t2 => simp [collapseSlashes, hd]

theorem collapseSlashes_ne_nil (c : Char) (rest : Str) :
    collapseSlashes (c :: rest) ≠ [] := by
  cases rest with
  | nil => simp [collapseSlashes]
  | cons c2 t => simp only [collapseSlashes]; split <;> simp

theorem hasSubstring_cons_elim {pat : Str} {c : Char} {rest : Str}
    (h : hasSubstring pat (c :: rest) = false) :
    pat.isPrefixOf (c :: rest) = false ∧ hasSubstring pat rest = false := by
  simp only [hasSubstring, Bool.or_eq_false_iff] at h
  exact h

theorem collapseSlashes_self : ∀ s : Str, hasSubstring ['/', '/'] s = false →
    collapseSlashes s = s
  | [], _ => rfl
  | [c], _ => rfl
  | c1 :: c2 :: t, h => by
    obtain ⟨hp, h2⟩ := hasSubstring_cons_elim h
    have hcc : ¬(c1 = '/' ∧ c2 = '/') := by
      rintro ⟨rfl, rfl⟩
      simp [List.isPrefixOf] at hp
    simp only [collapseSlashes, if_neg hcc]
    exact congrArg (c1 :: ·) (collapseSlashes_self (c2 :: t) h2)

theorem collapseSlashes_subset : ∀ s : Str, ∀ x : Char,
    x ∈ collapseSlashes s → x = '/' ∨ x ∈ s
  | [], x, h => by simp [collapseSlashes] at h
  | [c], x, h => by
    simp [collapseSlashes] at h
    exact Or.inr (by simp [h])
  | c1 :: c2 :: t, x, h => by
    by_cases hcc : c1 = '/' ∧ c2 = '/'
    · simp only [collapseSlashes, if_pos hcc, List.mem_cons] at h
      rcases h with h | h
      · exact Or.inl h
      · rcases collapseSlashes_subset t x h with h | h
        · exact Or.inl h
        · exact Or.inr (by simp [h])
    · simp only [collapseSlashes, if_neg hcc, List.mem_cons] at h
      rcases h with h | h
      · exact Or.inr (by simp [h])
      · rcases collapseSlashes_subset (c2 :: t) x h with h | h
        · exact Or.inl h
        · exact Or.inr (List.mem_cons_of_mem c1 h)

theorem isPrefixOf_dropLast : ∀ (pat s : Str),
    pat.isPrefixOf s.dropLast = true → pat.isPrefixOf s = true
  | [], s, _ => by simp [List.isPrefixOf]
  | a :: as, [], h => by simp [List.isPrefixOf] at h
  | a :: as, [b], h => by simp [List.isPrefixOf] at h
  | a :: as, b :: c :: t, h => by
    simp only [List.dropLast_cons₂, List.isPrefixOf, Bool.and_eq_true] at h ⊢
    exact ⟨h.1, isPrefixOf_dropLast as (c :: t) h.2⟩

theorem hasSubstring_step (pat : Str) (c : Char) (rest : Str) :
    hasSubstring pat (c :: rest) = (pat.isPrefixOf (c :: rest) || hasSubstring pat rest) := rfl

theorem hasSubstring_dropLast_true (pat : Str) : ∀ s : Str,
    hasSubstring pat s.dropLast = true → hasSubstring pat s = true
  | [], h => h
  | [b], h => by
    rw [show ([b] : Str).dropLast = [] from rfl] at h
    have hpat : pat = [] := by
      cases pat with
      | nil => rfl
      | cons x xs => simp [hasSubstring] at h
    subst hpat
    rw [hasSubstring_step]
    simp [List.isPrefixOf]
  | b :: c :: t, h => by
    rw [List.dropLast_cons₂, hasSubstring_step, Bool.or_eq_true] at h
    rw [hasSubstring_step, Bool.or_eq_true]
    rcases h with h | h
    · exact Or.inl (isPrefixOf_dropLast pat (b :: c :: t)
        (by rw [List.dropLast_cons₂]; exact h))
    · exact Or.inr (hasSubstring_dropLast_true pat (c :: t) h)

theorem hasSubstring_dropLast (pat s : Str) (h : hasSubstring pat s = false) :
    hasSubstring pat s.dropLast = false := by
  cases hq : hasSubstring pat s.dropLast with
  | false => rfl
  | true => rw [hasSubstring_dropLast_true pat s hq] at h; exact h.symm ▸ rfl

theorem collapseSlashes_noDouble : ∀ s : Str,
    hasSubstring ['/', '/', '/'] s = false →
    hasSubstring ['/', '/'] (collapseSlashes s) = false
  | [], _ => by decide
  | [c], _ => by
    rw [show collapseSlashes [c] = [c] from rfl, hasSubstring_step]
    simp [List.isPrefixOf, hasSubstring]
  | c1 :: c2 :: t, h => by
    obtain ⟨hp, h2⟩ := hasSubstring_cons_elim h
    obtain ⟨hp2, h3⟩ := hasSubstring_cons_elim h2
    by_cases hcc : c1 = '/' ∧ c2 = '/'
    · obtain ⟨rfl, rfl⟩ := hcc
      have hcol : collapseSlashes ('/' :: '/' :: t) = '/' :: collapseSlashes t := by
        simp [collapseSlashes]
      rw [hcol]
      cases t with
      | nil => decide
      | cons d t2 =>
        have hd : d ≠ '/' := by
          intro hd
          subst hd
          simp [List.isPrefixOf] at hp
        have hrec := collapseSlashes_noDouble (d :: t2) h3
        rw [collapseSlashes_cons d t2 hd] at hrec ⊢
        rw [hasSubstring_step, Bool.or_eq_false_iff]
        refine ⟨?_, hrec⟩
        simp [List.isPrefixOf, Ne.symm hd]
    · have hcol : collapseSlashes (c1 :: c2 :: t) = c1 :: collapseSlashes (c2 :: t) := by
        simp [collapseSlashes, hcc]
      rw [hcol]
      have hrec := collapseSlashes_noDouble (c2 :: t) h2
      rw [hasSubstring_step, Bool.or_eq_false_iff]
      refine ⟨?_, hrec⟩
      by_cases hc1 : c1 = '/'
      · subst hc1
        have hc2 : c2 ≠ '/' := fun hc2 => hcc ⟨rfl, hc2⟩
        cases t with
        | nil =>
          rw [show collapseSlashes [c2] = [c2] from rfl]
          simp [List.isPrefixOf, Ne.symm hc2]
        | cons e t3 =>
          rw [collapseSlashes_cons c2 (e :: t3) hc2]
          simp [List.isPrefixOf, Ne.symm hc2]
      · simp [List.isPrefixOf, Ne.symm hc1]

theorem collapseSlashes_getLast : ∀ s : Str,
    s.getLast? ≠ some '/' → (collapseSlashes s).getLast? ≠ some '/'
  | [], h => by simp [collapseSlashes]
  | [c], h => by simpa [collapseSlashes] using h
  | c1 :: c2 :: t, h => by
    by_cases hcc : c1 = '/' ∧ c2 = '/'
    · obtain ⟨rfl, rfl⟩ := hcc
      have hcol : collapseSlashes ('/' :: '/' :: t) = '/' :: collapseSlashes t := by
        simp [collapseSlashes]
      rw [hcol]
      cases t with
      | nil => exact absurd (by decide : (['/', '/'] : Str).getLast? = some '/') h
      | cons d t2 =>
        have ht : (d :: t2).getLast? ≠ some '/' := by
          rwa [List.getLast?_cons_cons] at h
        have hrec := collapseSlashes_getLast (d :: t2) ht
        rcases hR : collapseSlashes (d :: t2) with _ | ⟨r1, R2⟩
        · exact absurd hR (collapseSlashes_ne_nil d t2)
        · rw [hR] at hrec
          rw [List.getLast?_cons_cons]
          exact hrec
    · have hcol : collapseSlashes (c1 :: c2 :: t) = c1 :: collapseSlashes (c2 :: t) := by
        simp [collapseSlashes, hcc]
      rw [hcol]
      have ht : (c2 :: t).getLast? ≠ some '/' := by
        rwa [List.getLast?_cons_cons] at h
      have hrec := collapseSlashes_getLast (c2 :: t) ht
      rcases hR : collapseSlashes (c2 :: t) with _ | ⟨r1, R2⟩
      · exact absurd hR (collapseSlashes_ne_nil c2 t)
      · rw [hR] at hrec
        rw [List.getLast?_cons_cons]
        exact hrec

/-- Claim C2, counterexample: path resolution is not idempotent on the
input a-slash-slash, whose once-resolved form still ends in a slash and
so loses a character on the second resolution. -/
theorem standardize_path_not_idempotent :
    standardize_path (standardize_path ['a', '/', '/'] ['h']) ['h']
      ≠ standardize_path ['a', '/', '/'] ['h'] := by decide

/-- Claim C2 (amended): path resolution is idempotent on every input
whose once-resolved form is a fixpoint shape, that is, contains no tilde,
no doubled separator, and no trailing separator; resolving such a result
again returns it unchanged. -/
theorem standardize_path_idempotent_on_normal (p h : Str)
    (h1 : '~' ∉ standardize_path p h)
    (h2 : hasSubstring ['/', '/'] (standardize_path p h) = false)
    (h3 : (standardize_path p h).getLast? ≠ some '/') :
    standardize_path (standardize_path p h) h = standardize_path p h := by
  have e1 : replaceTilde h (standardize_path p h) = standardize_path p h :=
    replaceTilde_self h (standardize_path p h) h1
  show collapseSlashes
      (if (replaceTilde h (standardize_path p h)).getLast? = some '/'
        then (replaceTilde h (standardize_path p h)).dropLast
        else replaceTilde h (standardize_path p h))
    = standardize_path p h
  rw [e1, if_neg h3]
  exact collapseSlashes_self (standardize_path p h) h2

/-- Witness for the amended claim C2 at a concrete already-normal
path. -/
theorem standardize_path_idempotent_on_normal_witness :
    standardize_path (standardize_path ['/', 'a'] ['/', 'h']) ['/', 'h']
      = standardize_path ['/', 'a'] ['/', 'h'] :=
  standardize_path_idempotent_on_normal ['/', 'a'] ['/', 'h']
    (by decide) (by decide) (by decide)

/-- Claim C5, counterexample: on the input a-4-slashes-b the single
double-slash substitution pass leaves a doubled separator in the result,
so the result is not free of doubled separators. -/
theorem standardize_path_leaves_double_separator :
    hasSubstring ['/', '/'] (standardize_path ['a', '/', '/', '/', '/', 'b'] ['h'])
      = true := by decide

/-- Claim C5 (amended): path resolution substitutes the home directory
for every tilde, strips one trailing separator, then runs one
left-to-right doubled-separator substitution pass; whenever the
substituted string contains no run of three or more separators and does
not end in a doubled separator, the result contains no doubled
separator, no trailing separator, and no tilde (provided the home value
itself contains none). -/
theorem standardize_path_normalizes (p h : Str)
    (h3 : hasSubstring ['/', '/', '/'] (replaceTilde h p) = false)
    (h2 : ¬((replaceTilde h p).getLast? = some '/' ∧
            (replaceTilde h p).dropLast.getLast? = some '/'))
    (ht : '~' ∉ h) :
    hasSubstring ['/', '/'] (standardize_path p h) = false ∧
    (standardize_path p h).getLast? ≠ some '/' ∧
    '~' ∉ standardize_path p h := by
  have htq : '~' ∉ replaceTilde h p := replaceTilde_not_mem h ht p
  by_cases hq : (replaceTilde h p).getLast? = some '/'
  · have hstd : standardize_path p h = collapseSlashes (replaceTilde h p).dropLast := by
      show collapseSlashes
          (if (replaceTilde h p).getLast? = some '/'
            then (replaceTilde h p).dropLast
            else replaceTilde h p)
        = collapseSlashes (replaceTilde h p).dropLast
      rw [if_pos hq]
    have h3d : hasSubstring ['/', '/', '/'] (replaceTilde h p).dropLast = false :=
      hasSubstring_dropLast _ _ h3
    have hlast : (replaceTilde h p).dropLast.getLast? ≠ some '/' :=
      fun hl => h2 ⟨hq, hl⟩
    have htq2 : '~' ∉ (replaceTilde h p).dropLast :=
      fun hm => htq ((List.dropLast_sublist _).subset hm)
    refine ⟨?_, ?_, ?_⟩
    · rw [hstd]; exact collapseSlashes_noDouble _ h3d
    · rw [hstd]; exact collapseSlashes_getLast _ hlast
    · rw [hstd]
      intro hm
      rcases collapseSlashes_subset _ _ hm with hm | hm
      · exact absurd hm (by decide)
      · exact htq2 hm
  · have hstd : standardize_path p h = collapseSlashes (replaceTilde h p) := by
      show collapseSlashes
          (if (replaceTilde h p).getLast? = some '/'
            then (replaceTilde h p).dropLast
            else replaceTilde h p)
        = collapseSlashes (replaceTilde h p)
      rw [if_neg hq]
    refine ⟨?_, ?_, ?_⟩
    · rw [hstd]; exact collapseSlashes_noDouble _ h3
    · rw [hstd]; exact collapseSlashes_getLast _ hq
    · rw [hstd]
      intro hm
      rcases collapseSlashes_subset _ _ hm with hm | hm
      · exact absurd hm (by decide)
      · exact htq hm

/-- Witness for the amended claim C5 at a concrete tilde path with a
single trailing separator. -/
theorem standardize_path_normalizes_witness :
    hasSubstring ['/', '/']
        (standardize_path ['~', '/', 'a', '/'] ['/', 'h']) = false ∧
    (standardize_path ['~', '/', 'a', '/'] ['/', 'h']).getLast? ≠ some '/' ∧
    '~' ∉ standardize_path ['~', '/', 'a', '/'] ['/', 'h'] :=
  standardize_path_normalizes ['~', '/', 'a', '/'] ['/', 'h']
    (by decide) (by decide) (by decide)

/-- Claim C3: during local reconciliation, when both files exist and
metadata and modification times are readable, the side with the smaller
elapsed-since-modification time overwrites the other side, and on
exactly equal elapsed times no copy occurs and only the same-age
diagnostic is emitted. -/
theorem syncOne_newest_wins (now : Nat) (repoI workingI : FileInfo)
    (rm wm : MetaInfo) (rt wt re we : Nat)
    (hrp : repoI.present = true) (hwp : workingI.present = true)
    (hrm : repoI.metadata = some rm) (hwm : workingI.metadata = some wm)
    (hrt : rm.modified = some rt) (hwt : wm.modified = some wt)
    (hre : elapsedSince now rt = some re) (hwe : elapsedSince now wt = some we) :
    (re < we → syncOne now repoI workingI = SyncDecision.copyRepoToWorking) ∧
    (we < re → syncOne now repoI workingI = SyncDecision.copyWorkingToRepo) ∧
    (re = we → syncOne now repoI workingI = SyncDecision.noOpSameAge) ∧
    ∀ i rf wf,
      (re < we → pathEvents i rf wf (syncOne now repoI workingI) = [copy_file rf wf]) ∧
      (we < re → pathEvents i rf wf (syncOne now repoI workingI) = [copy_file wf rf]) ∧
      (re = we → pathEvents i rf wf (syncOne now repoI workingI) = [Event.diagSameAge i]) := by
  have hbase : syncOne now repoI workingI =
      (if re < we then SyncDecision.copyRepoToWorking
       else if we < re then SyncDecision.copyWorkingToRepo
       else SyncDecision.noOpSameAge) := by
    simp [syncOne, metadataDecision, hrp, hwp, hrm, hwm, hrt, hwt, hre, hwe]
  have hlt : re < we → syncOne now repoI workingI = SyncDecision.copyRepoToWorking := by
    intro h; rw [hbase, if_pos h]
  have hgt : we < re → syncOne now repoI workingI = SyncDecision.copyWorkingToRepo := by
    intro h
    rw [hbase, if_neg (by omega), if_pos h]
  have heq : re = we → syncOne now repoI workingI = SyncDecision.noOpSameAge := by
    intro h
    rw [hbase, if_neg (by omega), if_neg (by omega)]
  refine ⟨hlt, hgt, heq, ?_⟩
  intro i rf wf
  refine ⟨?_, ?_, ?_⟩
  · intro h; rw [hlt h]; rfl
  · intro h; rw [hgt h]; rfl
  · intro h; rw [heq h]; rfl

/-- Witness for claim C3: with the repository file modified at time 5
and the system file at time 3, seen at time 10, the repository side has
the smaller elapsed time and is copied over the system side. -/
theorem syncOne_newest_wins_witness :
    syncOne 10 ⟨true, some ⟨some 5⟩⟩ ⟨true, some ⟨some 3⟩⟩
      = SyncDecision.copyRepoToWorking :=
  (syncOne_newest_wins 10 ⟨true, some ⟨some 5⟩⟩ ⟨true, some ⟨some 3⟩⟩
    ⟨some 5⟩ ⟨some 3⟩ 5 3 5 7 rfl rfl rfl rfl rfl rfl (by decide) (by decide)).1
    (by decide)

/-- Claim C4: during local reconciliation, when exactly one of the two
candidate files exists, the existing file is copied to the missing
location regardless of any timestamp data. -/
theorem syncOne_existence_asymmetry (now : Nat) (repoI workingI : FileInfo) :
    (repoI.present = false → workingI.present = true →
      syncOne now repoI workingI = SyncDecision.copyWorkingToRepo ∧
      ∀ i rf wf, pathEvents i rf wf (syncOne now repoI workingI) = [copy_file wf rf]) ∧
    (repoI.present = true → workingI.present = false →
      syncOne now repoI workingI = SyncDecision.copyRepoToWorking ∧
      ∀ i rf wf, pathEvents i rf wf (syncOne now repoI workingI) = [copy_file rf wf]) := by
  constructor
  · intro hr hw
    have hdec : syncOne now repoI workingI = SyncDecision.copyWorkingToRepo := by
      simp [syncOne, hr, hw]
    exact ⟨hdec, fun i rf wf => by rw [hdec]; rfl⟩
  · intro hr hw
    have hdec : syncOne now repoI workingI = SyncDecision.copyRepoToWorking := by
      simp [syncOne, hr, hw]
    exact ⟨hdec, fun i rf wf => by rw [hdec]; rfl⟩

/-- Witness for claim C4: a missing repository file and an existing
system file lead to a copy from the system path to the repository
path. -/
theorem syncOne_existence_asymmetry_witness :
    syncOne 0 ⟨false, none⟩ ⟨true, some ⟨some 4⟩⟩
      = SyncDecision.copyWorkingToRepo :=
  ((syncOne_existence_asymmetry 0 ⟨false, none⟩ ⟨true, some ⟨some 4⟩⟩).1
    rfl rfl).1

/-- Claim C8, counterexample: with both files absent the loop does not
emit only the both-missing diagnostic; because the both-missing branch
has no continue, the iteration falls through to the metadata fetch on
the absent repository file, whose failure prints a metadata error line
as well. -/
theorem sync_both_missing_not_single_diagnostic :
    sync_local_loop 0 (fun _ => ⟨false, none⟩) ['d'] ['v'] ['p'] [['r']]
      = [Event.diagBothMissing ['r'],
         Event.diagErrMetadata ['d', '/', 'v', '/', 'r']] ∧
    sync_local_loop 0 (fun _ => ⟨false, none⟩) ['d'] ['v'] ['p'] [['r']]
      ≠ [Event.diagBothMissing ['r']] := by decide

/-- Claim C8 (amended): when neither candidate file exists, the
both-missing diagnostic is printed and, the branch lacking a continue,
the iteration falls through to the metadata fetch on the absent
repository file; when that fetch fails (as it does on a race-free
filesystem for a missing file) one metadata-error line follows.  Still
no copy occurs, nothing is fatal, and the loop moves to the next
path. -/
theorem sync_both_missing_diag_and_metadata_error (now : Nat)
    (repoI workingI : FileInfo) (i rf wf : Str)
    (hr : repoI.present = false) (hw : workingI.present = false)
    (hm : repoI.metadata = none) :
    syncOne now repoI workingI = SyncDecision.errMetadata Side.repo ∧
    iterationEvents now i rf wf repoI workingI
      = [Event.diagBothMissing i, Event.diagErrMetadata rf] ∧
    ((iterationEvents now i rf wf repoI workingI).all fun e => !e.isCopy) = true ∧
    (∀ fs dd rnt pfr (j : Str) (rest : List Str),
        sync_local_loop now fs dd rnt pfr (j :: rest) =
          iterationEvents now j (dd ++ '/' :: rnt ++ '/' :: j) (pfr ++ '/' :: j)
            (fs (dd ++ '/' :: rnt ++ '/' :: j)) (fs (pfr ++ '/' :: j))
            ++ sync_local_loop now fs dd rnt pfr rest) := by
  have hdec : syncOne now repoI workingI = SyncDecision.errMetadata Side.repo := by
    simp [syncOne, metadataDecision, hr, hw, hm]
  refine ⟨hdec, ?_, ?_, ?_⟩
  · simp [iterationEvents, hdec, hr, hw, pathEvents]
  · simp [iterationEvents, hdec, hr, hw, pathEvents, Event.isCopy]
  · intro fs dd rnt pfr j rest
    rfl

/-- Witness for the amended claim C8 at a concrete state where both
files are absent and the repository metadata fetch fails. -/
theorem sync_both_missing_diag_and_metadata_error_witness :
    syncOne 7 ⟨false, none⟩ ⟨false, none⟩ = SyncDecision.errMetadata Side.repo ∧
    iterationEvents 7 ['v'] ['r'] ['w'] ⟨false, none⟩ ⟨false, none⟩
      = [Event.diagBothMissing ['v'], Event.diagErrMetadata ['r']] :=
  ⟨(sync_both_missing_diag_and_metadata_error 7 ⟨false, none⟩ ⟨false, none⟩
      ['v'] ['r'] ['w'] rfl rfl rfl).1,
   (sync_both_missing_diag_and_metadata_error 7 ⟨false, none⟩ ⟨false, none⟩
      ['v'] ['r'] ['w'] rfl rfl rfl).2.1⟩

/-- Claim C10: during local reconciliation, when both files exist and
metadata is readable but a modification time lies in the future (so the
elapsed computation errs), the path is skipped with the
could-not-determine-modification-time diagnostic and no copy, exactly
as for unreadable metadata, and the loop goes on to the remaining
paths. -/
theorem syncOne_future_mtime (now : Nat) (repoI workingI : FileInfo)
    (rm wm : MetaInfo) (rt : Nat)
    (hrp : repoI.present = true) (hwp : workingI.present = true)
    (hrm : repoI.metadata = some rm) (hwm : workingI.metadata = some wm) :
    (rm.modified = some rt → now < rt →
        syncOne now repoI workingI = SyncDecision.errModified Side.repo) ∧
    (∀ wt re, rm.modified = some rt → elapsedSince now rt = some re →
        wm.modified = some wt → now < wt →
        syncOne now repoI workingI = SyncDecision.errModified Side.working) ∧
    (∀ i rf wf s, pathEvents i rf wf (SyncDecision.errModified s)
          = [Event.diagErrModified i] ∧
        ((pathEvents i rf wf (SyncDecision.errModified s)).all
          fun e => !e.isCopy) = true) ∧
    (∀ fs dd rnt pfr (j : Str) (rest : List Str),
        sync_local_loop now fs dd rnt pfr (j :: rest) =
          iterationEvents now j (dd ++ '/' :: rnt ++ '/' :: j) (pfr ++ '/' :: j)
            (fs (dd ++ '/' :: rnt ++ '/' :: j)) (fs (pfr ++ '/' :: j))
            ++ sync_local_loop now fs dd rnt pfr rest) := by
  refine ⟨?_, ?_, ?_, ?_⟩
  · intro hrt hfut
    have he : elapsedSince now rt = none := by
      simp [elapsedSince]; omega
    simp [syncOne, metadataDecision, hrp, hwp, hrm, hwm, hrt, he]
  · intro wt re hrt hre hwt hfut
    have he : elapsedSince now wt = none := by
      simp [elapsedSince]; omega
    simp [syncOne, metadataDecision, hrp, hwp, hrm, hwm, hrt, hre, hwt, he]
  · intro i rf wf s
    cases s <;> exact ⟨rfl, rfl⟩
  · intro fs dd rnt pfr j rest
    rfl

/-- Witness for claim C10: at time 3 a repository file stamped 5 is in
the future, and the decision is the repo-side modification-time
error. -/
theorem syncOne_future_mtime_witness :
    syncOne 3 ⟨true, some ⟨some 5⟩⟩ ⟨true, some ⟨some 1⟩⟩
      = SyncDecision.errModified Side.repo :=
  (syncOne_future_mtime 3 ⟨true, some ⟨some 5⟩⟩ ⟨true, some ⟨some 1⟩⟩
    ⟨some 5⟩ ⟨some 1⟩ 5 rfl rfl rfl rfl).1 rfl (by decide)

/-- Claim C7: per-file failures are isolated: the sync loop over a
tracked-path list splits pointwise, so the events of every path after a
failing one are emitted exactly as they would be on their own, and the
two error decisions (unreadable metadata, unreadable or future
modification time) emit no copy event for their own path. -/
theorem sync_local_failure_isolation (now : Nat) (fs : Str → FileInfo)
    (dd rnt pfr : Str) (xs ys : List Str) :
    sync_local_loop now fs dd rnt pfr (xs ++ ys)
      = sync_local_loop now fs dd rnt pfr xs ++ sync_local_loop now fs dd rnt pfr ys ∧
    (∀ (i rf wf : Str) (s : Side),
      ((pathEvents i rf wf (SyncDecision.errMetadata s)).all fun e => !e.isCopy) = true) ∧
    (∀ (i rf wf : Str) (s : Side),
      ((pathEvents i rf wf (SyncDecision.errModified s)).all fun e => !e.isCopy) = true) := by
  refine ⟨?_, ?_, ?_⟩
  · induction xs with
    | nil => rfl
    | cons j rest ih =>
      simp only [List.cons_append, sync_local_loop, List.append_eq]
      rw [ih]
      exact (List.append_assoc _ _ _).symm
  · intro i rf wf s
    cases s <;> rfl
  · intro i rf wf s
    cases s <;> rfl

theorem deployLoop_no_runCmd : ∀ (a b c : Str) (L : List Str),
    ((deployLoop a b c L).all fun e => !e.isRunCmd) = true
  | _, _, _, [] => rfl
  | a, b, c, _ :: rest => by
    simp only [deployLoop, List.all_cons, Bool.and_eq_true]
    exact ⟨rfl, deployLoop_no_runCmd a b c rest⟩

/-- Claim C1 (code bug): the deploy operation only creates the output
directory and copies files; it never emits a shell-command event, even
though run_post_deploy_cmd would run any non-empty post-deploy command
if deploy invoked it.  The call is simply missing from the source. -/
theorem deploy_never_runs_post_deploy (p : Program) (home_dir dotfiles_dir : Str) :
    ((p.deploy home_dir dotfiles_dir).all fun e => !e.isRunCmd) = true ∧
    ∀ q : Program, q.post_deploy_cmd ≠ [] →
      q.run_post_deploy_cmd = [Event.runCmd q.post_deploy_cmd] := by
  constructor
  · simp only [Program.deploy, List.all_cons, Bool.and_eq_true]
    exact ⟨rfl, deployLoop_no_runCmd _ _ _ p.paths⟩
  · intro q hq
    have hlen : ¬q.post_deploy_cmd.length < 1 := by
      cases hc : q.post_deploy_cmd with
      | nil => exact absurd hc hq
      | cons x xs => simp [hc]
    simp [Program.run_post_deploy_cmd, hlen]

/-- Witness for claim C1 at a concrete program whose post-deploy
command is non-empty: its deploy trace has no shell-command event while
run_post_deploy_cmd would execute the command. -/
theorem deploy_never_runs_post_deploy_witness :
    ((Program.deploy ⟨['v'], ['~', '/', '.', 'v'], [['r', 'c']], ['e', 'c', 'h', 'o']⟩
        ['/', 'h'] ['/', 'h', '/', 'd']).all fun e => !e.isRunCmd) = true ∧
    Program.run_post_deploy_cmd
        ⟨['v'], ['~', '/', '.', 'v'], [['r', 'c']], ['e', 'c', 'h', 'o']⟩
      = [Event.runCmd ['e', 'c', 'h', 'o']] :=
  ⟨(deploy_never_runs_post_deploy
      ⟨['v'], ['~', '/', '.', 'v'], [['r', 'c']], ['e', 'c', 'h', 'o']⟩
      ['/', 'h'] ['/', 'h', '/', 'd']).1,
   (deploy_never_runs_post_deploy
      ⟨['v'], ['~', '/', '.', 'v'], [['r', 'c']], ['e', 'c', 'h', 'o']⟩
      ['/', 'h'] ['/', 'h', '/', 'd']).2
     ⟨['v'], ['~', '/', '.', 'v'], [['r', 'c']], ['e', 'c', 'h', 'o']⟩ (by decide)⟩

/-- Claim C6 (code bug evaluation): configuration load stores the HOME
value verbatim and only substitutes the tilde in the dotfiles
directory, so with a HOME of slash-h-slash and a configured directory
of tilde-slash-d-slash both stored fields end in a path separator. -/
theorem new_from_file_keeps_trailing_separator :
    (Settings.new_from_file ['~', '/', 'd', '/'] [] ['/', 'h', '/'] []).home.getLast?
      = some '/' ∧
    (Settings.new_from_file ['~', '/', 'd', '/'] [] ['/', 'h', '/']
        []).dotfiles_directory.getLast? = some '/' := by decide

theorem pathEvents_no_git (i rf wf : Str) (d : SyncDecision) :
    ∀ e ∈ pathEvents i rf wf d, e ≠ Event.gitPull ∧ e ≠ Event.gitPush := by
  intro e he
  cases d with
  | copyWorkingToRepo =>
    simp only [pathEvents, List.mem_singleton] at he
    subst he
    exact ⟨(fun h => nomatch h), (fun h => nomatch h)⟩
  | copyRepoToWorking =>
    simp only [pathEvents, List.mem_singleton] at he
    subst he
    exact ⟨(fun h => nomatch h), (fun h => nomatch h)⟩
  | errMetadata s =>
    cases s with
    | repo =>
      simp only [pathEvents, List.mem_singleton] at he
      subst he
      exact ⟨(fun h => nomatch h), (fun h => nomatch h)⟩
    | working =>
      simp only [pathEvents, List.mem_singleton] at he
      subst he
      exact ⟨(fun h => nomatch h), (fun h => nomatch h)⟩
  | errModified s =>
    simp only [pathEvents, List.mem_singleton] at he
    subst he
    exact ⟨(fun h => nomatch h), (fun h => nomatch h)⟩
  | noOpSameAge =>
    simp only [pathEvents, List.mem_singleton] at he
    subst he
    exact ⟨(fun h => nomatch h), (fun h => nomatch h)⟩

theorem iterationEvents_no_git (now : Nat) (i rf wf : Str)
    (repoI workingI : FileInfo) :
    ∀ e ∈ iterationEvents now i rf wf repoI workingI,
      e ≠ Event.gitPull ∧ e ≠ Event.gitPush := by
  intro e he
  simp only [iterationEvents] at he
  rcases List.mem_append.mp he with h | h
  · split at h
    · simp only [List.mem_singleton] at h
      subst h
      exact ⟨(fun x => nomatch x), (fun x => nomatch x)⟩
    · simp at h
  · exact pathEvents_no_git _ _ _ _ e h

theorem sync_local_loop_no_git (now : Nat) (fs : Str → FileInfo) (dd rnt pfr : Str) :
    ∀ (L : List Str), ∀ e ∈ sync_local_loop now fs dd rnt pfr L,
      e ≠ Event.gitPull ∧ e ≠ Event.gitPush
  | [], e, he => by simp [sync_local_loop] at he
  | i :: rest, e, he => by
    simp only [sync_local_loop] at he
    rcases List.mem_append.mp he with h | h
    · exact iterationEvents_no_git _ _ _ _ _ _ e h
    · exact sync_local_loop_no_git now fs dd rnt pfr rest e h

theorem program_sync_local_no_git (p : Program) (home dot : Str) (now : Nat)
    (fs : Str → FileInfo) :
    ∀ e ∈ p.sync_local home dot now fs, e ≠ Event.gitPull ∧ e ≠ Event.gitPush := by
  intro e he
  simp only [Program.sync_local, List.mem_cons] at he
  rcases he with rfl | rfl | he
  · exact ⟨(fun h => nomatch h), (fun h => nomatch h)⟩
  · exact ⟨(fun h => nomatch h), (fun h => nomatch h)⟩
  · exact sync_local_loop_no_git now fs _ _ _ p.paths e he

theorem syncAllPrograms_no_git (home dot : Str) (now : Nat) (fs : Str → FileInfo) :
    ∀ (ps : List Program), ∀ e ∈ syncAllPrograms home dot now fs ps,
      e ≠ Event.gitPull ∧ e ≠ Event.gitPush
  | [], e, he => by simp [syncAllPrograms] at he
  | p :: rest, e, he => by
    simp only [syncAllPrograms] at he
    rcases List.mem_append.mp he with h | h
    · exact program_sync_local_no_git p home dot now fs e h
    · exact syncAllPrograms_no_git home dot now fs rest e h

theorem concat_getElem? {α : Type} : ∀ (L : List α) (n : Nat) (e x : α),
    (L ++ [x])[n]? = some e → e = x ∨ (n < L.length ∧ L[n]? = some e)
  | [], 0, e, x, h => by
    simp only [List.nil_append, List.getElem?_cons_zero] at h
    exact Or.inl (Option.some.inj h).symm
  | [], n + 1, e, x, h => by
    simp only [List.nil_append, List.getElem?_cons_succ, List.getElem?_nil] at h
    exact nomatch h
  | a :: L, 0, e, x, h => by
    simp only [List.cons_append, List.getElem?_cons_zero] at h
    exact Or.inr ⟨Nat.succ_pos _, by rw [List.getElem?_cons_zero]; exact h⟩
  | a :: L, n + 1, e, x, h => by
    simp only [List.cons_append, List.getElem?_cons_succ] at h
    rcases concat_getElem? L n e x h with h1 | ⟨h1, h2⟩
    · exact Or.inl h1
    · refine Or.inr ⟨?_, by rw [List.getElem?_cons_succ]; exact h2⟩
      simp only [List.length_cons]
      omega

/-- Claim C9: the full-sync trace starts with the version-control pull,
ends with the version-control push, its middle (the reconciliation over
all programs in order) contains neither, and consequently every
reconciliation event sits at an index strictly after the pull and
strictly before the push. -/
theorem sync_full_phase_order (s : Settings) (now : Nat) (fs : Str → FileInfo) :
    (Settings.sync_full s now fs).head? = some Event.gitPull ∧
    (Settings.sync_full s now fs).getLast? = some Event.gitPush ∧
    (∀ e ∈ syncAllPrograms s.home s.dotfiles_directory now fs s.programs,
        e ≠ Event.gitPull ∧ e ≠ Event.gitPush) ∧
    ∀ (n : Nat) (e : Event), (Settings.sync_full s now fs)[n]? = some e →
      e ≠ Event.gitPull → e ≠ Event.gitPush →
      0 < n ∧ n + 1 < (Settings.sync_full s now fs).length := by
  refine ⟨rfl, ?_, syncAllPrograms_no_git _ _ _ _ _, ?_⟩
  · rw [Settings.sync_full]
    exact List.getLast?_concat _
  · intro n e hn hpull hpush
    rw [Settings.sync_full, List.cons_append] at hn
    cases n with
    | zero =>
      rw [List.getElem?_cons_zero] at hn
      exact absurd (Option.some.inj hn).symm hpull
    | succ m =>
      rw [List.getElem?_cons_succ] at hn
      rcases concat_getElem? _ m e Event.gitPush hn with h1 | ⟨h1, _⟩
      · exact absurd h1 hpush
      · refine ⟨Nat.succ_pos m, ?_⟩
        rw [Settings.sync_full]
        simp only [List.length_cons, List.length_append, List.length_singleton]
        omega

/-- Witness for claim C9: in a one-program configuration where neither
file exists, the both-missing diagnostic at index three of the
full-sync trace sits strictly between the pull at index zero and the
push at the final index of the five-event trace. -/
theorem sync_full_phase_order_witness :
    0 < 3 ∧ 3 + 1 <
      (Settings.sync_full
        ⟨['/', 'h'], [], ['/', 'h', '/', 'd'],
          [⟨['v'], ['~', '/', '.', 'v'], [['r', 'c']], []⟩]⟩
        0 (fun _ => ⟨false, none⟩)).length :=
  (sync_full_phase_order
    ⟨['/', 'h'], [], ['/', 'h', '/', 'd'],
      [⟨['v'], ['~', '/', '.', 'v'], [['r', 'c']], []⟩]⟩
    0 (fun _ => ⟨false, none⟩)).2.2.2 3 (Event.diagBothMissing ['r', 'c'])
    (by decide) (fun h => nomatch h) (fun h => nomatch h)
